import Mathlib

/-!
Shallow embedding of the `pff` positional flat-file library
(`src/pff/pff.py`) and verification of its specification claims.

Text is modelled as `List Char`.  Python values flowing through the
library (cell contents, dict values) are modelled by the inductive
`PVal`, covering the value shapes the library manipulates: `None`,
`int` and `str`.  Python's `int(...)` / `str(...)` coercions are
modelled by `coerce`; `int(str)` parsing models decimal parsing with
optional surrounding spaces and an optional sign (whitespace other
than the space character does not occur in the inputs considered
here).  Fallible Python code (exceptions) is modelled with `Except`.
-/

namespace PFF

/-- Python character-level helpers: a decimal digit character. -/
def digitToChar (d : Nat) : Char := Char.ofNat (48 + d)

/-- Inverse of `digitToChar` on '0'..'9'. -/
def charToDigit (c : Char) : Option Nat :=
  if 48 ≤ c.toNat ∧ c.toNat ≤ 57 then some (c.toNat - 48) else none

/-- Big-endian decimal digit list of a natural number, with `fuel`
bounding the recursion depth (any `fuel ≥ n` is enough). -/
def natToCharsAux : Nat → Nat → List Char
  | 0, _ => []
  | _ + 1, 0 => []
  | fuel + 1, n + 1 =>
    natToCharsAux fuel ((n + 1) / 10) ++ [digitToChar ((n + 1) % 10)]

/-- Model of Python `str` applied to a non-negative integer. -/
def natToChars (n : Nat) : List Char :=
  if n = 0 then ['0'] else natToCharsAux n n

/-- Model of Python `str` applied to an `int`. -/
def intToChars : Int → List Char
  | Int.ofNat n => natToChars n
  | Int.negSucc m => '-' :: natToChars (m + 1)

/-- Parse a nonempty all-digit string into a natural number
(accumulator version). -/
def parseDigitsAux : Nat → List Char → Option Nat
  | acc, [] => some acc
  | acc, c :: cs =>
    match charToDigit c with
    | some d => parseDigitsAux (acc * 10 + d) cs
    | none => none

/-- Parse a nonempty all-digit string into a natural number. -/
def parseDigits (cs : List Char) : Option Nat :=
  if cs = [] then none else parseDigitsAux 0 cs

/-- Strip space characters from both ends of a string. -/
def stripSpaces (cs : List Char) : List Char :=
  ((cs.dropWhile (· == ' ')).reverse.dropWhile (· == ' ')).reverse

/-- The sign-and-digits part of Python `int(s)`: an optional sign
followed by a nonempty run of decimal digits. -/
def parseIntCore : List Char → Option Int
  | [] => none
  | c :: rest =>
    if c = '-' then
      match parseDigits rest with
      | some n => some (-(n : Int))
      | none => none
    else if c = '+' then
      match parseDigits rest with
      | some n => some ((n : Int))
      | none => none
    else
      match parseDigits (c :: rest) with
      | some n => some ((n : Int))
      | none => none

/-- Model of Python `int(s)` on a string: optional surrounding spaces,
optional sign, then a nonempty run of decimal digits; anything else
raises `ValueError` (modelled as `none`). -/
def parseInt (cs : List Char) : Option Int :=
  parseIntCore (stripSpaces cs)

/-- A Python value as manipulated by the library: `None`, an `int`
or a `str`. -/
inductive PVal where
  | pnone
  | pint (i : Int)
  | pstr (s : List Char)
deriving DecidableEq, Repr

/-- Python truthiness of a `PVal` (`bool(v)`). -/
def pyTruthy : PVal → Bool
  | .pnone => false
  | .pint i => i != 0
  | .pstr s => !s.isEmpty

/-- Model of Python `unicode(v)` / `str(v)`. -/
def pyStr : PVal → List Char
  | .pnone => ['N', 'o', 'n', 'e']
  | .pint i => intToChars i
  | .pstr s => s

/-- The `type` attribute of a cell: the Python type object used for
kind-driven defaults and coercion (`unicode`/`str` or `int`). -/
inductive PKind where
  | kstr
  | kint
deriving DecidableEq, Repr

/-- `is_numerical(typ)`: `typ in (int, float, complex)`. -/
def is_numerical : PKind → Bool
  | .kstr => false
  | .kint => true

/-- Model of applying the cell's type to a value, `cell.type(v)`:
`str(v)` always succeeds; `int(v)` is the identity on ints, decimal
parsing on strings (`ValueError` on failure), `TypeError` on `None`.
`none` models the raised exception. -/
def coerce (k : PKind) (v : PVal) : Option PVal :=
  match k with
  | .kstr => some (.pstr (pyStr v))
  | .kint =>
    match v with
    | .pnone => none
    | .pint i => some (.pint i)
    | .pstr s => (parseInt s).map .pint

/-- Errors the modelled code can raise. -/
inductive PyErr where
  | typeErr
  | overflow (content : List Char) (cellName : List Char) (cellSize : Nat)
  | indexErr
deriving DecidableEq, Repr

/-- The plain data attributes of a `PFFCell` (everything except the
function-valued attributes), as fixed by `PFFCell.__init__`. -/
structure CellData where
  name : List Char
  length : Nat
  type : PKind
  filler : Char
  align : Bool
  default : PVal
deriving DecidableEq, Repr

/-- In `CellData.align`, `true` models `'l'` and `false` models `'r'`
(the constructor guarantees the attribute is one of the two). -/
def alignLeft : Bool := true

/-- `default_truncator(text, len) = text[:len]`. -/
def default_truncator (text : List Char) (len : Nat) : List Char :=
  text.take len

/-- `default_before_write(cell, text) = text and cell.type(text) or text`;
the coercion may raise, and the exception propagates. -/
def default_before_write (cd : CellData) (v : PVal) : Except PyErr PVal :=
  if pyTruthy v then
    match coerce cd.type v with
    | some w => pure (if pyTruthy w then w else v)
    | none => throw .typeErr
  else pure v

/-- `default_after_read(cell, text)`: `text and cell.type(text)`,
returning `text` unchanged if the coercion raises. -/
def default_after_read (cd : CellData) (v : PVal) : PVal :=
  if pyTruthy v then (coerce cd.type v).getD v else v

/-- A `PFFCell`: its data attributes plus the function-valued
attributes `truncator`, `before_write` and `after_read` hooks (the
hooks receive the cell's data, mirroring the Python `cell` argument;
`none` models an unset hook). -/
structure PFFCell extends CellData where
  truncator : List Char → Nat → List Char
  bw : Option (CellData → PVal → Except PyErr PVal)
  ar : Option (CellData → PVal → PVal)

/-- Python `s.ljust(n, f)` / `s.rjust(n, f)` combined with the
alignment dispatch at the end of `PFFCell._justify`. -/
def pad (align : Bool) (filler : Char) (n : Nat) (s : List Char) : List Char :=
  if align then s ++ List.replicate (n - s.length) filler
  else List.replicate (n - s.length) filler ++ s

/-- `PFFCell._justify(content, autotruncate)`. -/
def PFFCell.justify (c : PFFCell) (autotruncate : Bool) (content : List Char) :
    Except PyErr (List Char) := do
  let content ←
    if autotruncate then pure (c.truncator content c.length)
    else if content.length > c.length then
      throw (.overflow content c.name c.length)
    else pure content
  pure (pad c.align c.filler c.length content)

/-- A value map (Python dict keyed by cell names). -/
abbrev Vals := List (List Char × PVal)

/-- Python `vals.get(k)` (with default `None` handled by the caller). -/
def getVal (vals : Vals) (k : List Char) : Option PVal :=
  match vals with
  | [] => none
  | (k', v) :: rest => if k' = k then some v else getVal rest k

/-- Python `dest[k] = v` on a dict: replace the binding or add one. -/
def setVal (vals : Vals) (k : List Char) (v : PVal) : Vals :=
  match vals with
  | [] => [(k, v)]
  | (k', v') :: rest =>
    if k' = k then (k, v) :: rest else (k', v') :: setVal rest k v

/-- The value-resolution prefix of `PFFCell.write`:
`content_val = vals.get(self.name, self.default)`, then
`if content_val is None: content_val = self.default`. -/
def resolveVal (c : PFFCell) (vals : Vals) : PVal :=
  let v := (getVal vals c.name).getD c.default
  if v = .pnone then c.default else v

/-- The text-production prefix of `PFFCell.write`: resolve the value,
apply the effective `before_write` hook
(`self._before_write or before_write or default_before_write`), and
stringify: `content_str = unicode(content_val or "")`. -/
def resolveText (c : PFFCell) (bwArg : Option (CellData → PVal → Except PyErr PVal))
    (vals : Vals) : Except PyErr (List Char) := do
  let v := resolveVal c vals
  let hook := c.bw.getD (bwArg.getD default_before_write)
  let v2 ← hook c.toCellData v
  pure (if pyTruthy v2 then pyStr v2 else [])

/-- `PFFCell.write(vals, autotruncate, before_write)`; the value map is
threaded through explicitly so that write-path effects on it (there are
none in the source) are visible in the result. -/
def PFFCell.write (c : PFFCell) (autotruncate : Bool)
    (bwArg : Option (CellData → PVal → Except PyErr PVal)) (vals : Vals) :
    Except PyErr (List Char × Vals) := do
  let text ← resolveText c bwArg vals
  let out ← c.justify autotruncate text
  pure (out, vals)

/-- The filler-stripping step of `PFFCell.read`: `lstrip` for
right-aligned cells, `rstrip` for left-aligned ones. -/
def stripContent (align : Bool) (filler : Char) (raw : List Char) : List Char :=
  if align then (raw.reverse.dropWhile (· == filler)).reverse
  else raw.dropWhile (· == filler)

/-- `PFFCell.read(line, dest, after_read)`: consume the first `length`
characters, strip filler, turn the empty string into `None`, apply the
effective `after_read` hook, store under the cell's name, and return
the rest of the line together with the updated map. -/
def PFFCell.read (c : PFFCell) (arArg : Option (CellData → PVal → PVal))
    (line : List Char) (dest : Vals) : List Char × Vals :=
  let raw := line.take c.length
  let stripped := stripContent c.align c.filler raw
  let v0 := if stripped = [] then PVal.pnone else PVal.pstr stripped
  let hook := c.ar.getD (arArg.getD default_after_read)
  (line.drop c.length, setVal dest c.name (hook c.toCellData v0))

/-- An operand of record-shape composition: a `PFFCell`, a `PFFLine`
(modelled as its list of cells), or any other Python value
(represented by a tag string), as dispatched by the `isinstance`
checks in the source. -/
inductive Operand where
  | cell (c : PFFCell)
  | line (l : List PFFCell)
  | other (s : List Char)

/-- `PFFLine.__init__(*elems)`: append cells, splice lines, and
silently skip any other operand (the constructor's `for` loop has no
`else` branch). -/
def lineInit (elems : List Operand) : List PFFCell :=
  elems.foldl
    (fun acc e =>
      match e with
      | .cell c => acc ++ [c]
      | .line l => acc ++ l
      | .other _ => acc)
    []

/-- `PFFLine.append(object)`: append a cell, splice a line, raise
`TypeError` otherwise. -/
def lineAppend (l : List PFFCell) (o : Operand) : Except PyErr (List PFFCell) :=
  match o with
  | .cell c => pure (l ++ [c])
  | .line l2 => pure (l ++ l2)
  | .other _ => throw .typeErr

/-- `PFFLine.__add__(other)`: `PFFLine(self, other)` for a cell or a
line, `TypeError` otherwise. -/
def lineAdd (l : List PFFCell) (o : Operand) : Except PyErr (List PFFCell) :=
  match o with
  | .other _ => throw .typeErr
  | _ => pure (lineInit [.line l, o])

/-- `PFFCell.__add__(other)`: `PFFLine(self, other)` for a cell or a
line, `TypeError` otherwise. -/
def cellAdd (c : PFFCell) (o : Operand) : Except PyErr (List PFFCell) :=
  match o with
  | .other _ => throw .typeErr
  | _ => pure (lineInit [.cell c, o])

/-- `PFFLine.write(vals, autotruncate, before_write)`: concatenate
each cell's output in order (a cell's exception propagates). -/
def lineWrite (l : List PFFCell) (autotruncate : Bool)
    (bwArg : Option (CellData → PVal → Except PyErr PVal)) (vals : Vals) :
    Except PyErr (List Char × Vals) :=
  match l with
  | [] => pure ([], vals)
  | c :: rest => do
    let p1 ← c.write autotruncate bwArg vals
    let p2 ← lineWrite rest autotruncate bwArg p1.2
    pure (p1.1 ++ p2.1, p2.2)

/-- The loop body of `PFFLine.read`: fold the cells over the line,
threading the remaining line and the result map exactly as the loop
rebinds `line` and mutates `res`. -/
def lineReadAux (l : List PFFCell) (arArg : Option (CellData → PVal → PVal))
    (line : List Char) (res : Vals) : List Char × Vals :=
  match l with
  | [] => (line, res)
  | c :: rest =>
    lineReadAux rest arArg (c.read arArg line res).1 (c.read arArg line res).2

/-- `PFFLine.read(line, after_read)`: start from the empty map and let
each cell consume its prefix. -/
def lineRead (l : List PFFCell) (arArg : Option (CellData → PVal → PVal))
    (line : List Char) : Vals :=
  (lineReadAux l arArg line []).2

/-- The cumulative width of a record shape: the sum of its cells'
lengths. -/
def sumWidths (l : List PFFCell) : Nat :=
  (l.map (fun c => c.length)).sum

/-- The remaining raw lines of the reader's file object; Python
`f.readline()` returns a nonempty string while lines remain and the
empty string at end of file. -/
abbrev FileSt := List (List Char)

/-- `self._file.readline()`. -/
def fileReadline : FileSt → List Char × FileSt
  | [] => ([], [])
  | l :: rest => (l, rest)

/-- A `PFFReader`: its line models, row counter and global `after_read`
hook (the file object is threaded separately as `FileSt`). -/
structure PFFReader where
  lines : List (List PFFCell)
  lcount : Nat
  arArg : Option (CellData → PVal → PVal)

/-- `PFFReader.chose_line_model`: `self._lines[0]`, raising
`IndexError` when there are no line models. -/
def PFFReader.choseLineModel (r : PFFReader) : Except PyErr (List PFFCell) :=
  match r.lines with
  | [] => throw .indexErr
  | m :: _ => pure m

/-- `PFFReader.readline()`: read a raw line; the empty string (end of
file) yields `None`, otherwise decode with the chosen line model and
bump the row counter. -/
def PFFReader.readline (r : PFFReader) (fs : FileSt) :
    Except PyErr (Option Vals × PFFReader × FileSt) :=
  let line := (fileReadline fs).1
  let fs' := (fileReadline fs).2
  if line = [] then pure (none, r, fs')
  else do
    let m ← r.choseLineModel
    pure (some (lineRead m r.arArg line), { r with lcount := r.lcount + 1 }, fs')

/-- Outcome of one step of the reader's sequence protocol. -/
inductive NextRes where
  | row (v : Vals)
  | stop
deriving DecidableEq, Repr

/-- `PFFReader.__next__()`: `line = self.readline()`; a falsy result
(`None` at end of file, or an empty decoded dict) raises
`StopIteration`, otherwise the row is yielded. -/
def PFFReader.next (r : PFFReader) (fs : FileSt) :
    Except PyErr (NextRes × PFFReader × FileSt) := do
  let t ← r.readline fs
  match t.1 with
  | none => pure (.stop, t.2.1, t.2.2)
  | some v =>
    if v = [] then pure (.stop, t.2.1, t.2.2) else pure (.row v, t.2.1, t.2.2)

/-- The cell produced by `PFFIntCell(name, length)` (and by
`PFFIntSpaceCell(name, length)`, whose constructor is inherited):
type `int`, hence right-aligned with filler `'0'`, default `None`,
default truncator, no hooks. -/
def mkIntCell (name : List Char) (length : Nat) : PFFCell :=
  { name := name, length := length, type := .kint, filler := '0',
    align := false, default := .pnone,
    truncator := default_truncator, bw := none, ar := none }

/-- `PFFIntSpaceCell._justify(content, autotruncate)`: for empty
content, set `self.filler` to the space character, justify, then
restore `'0'`; the updated cell is returned alongside the result (on
an exception the restoring assignment is skipped). -/
def intSpaceJustify (c : PFFCell) (autotruncate : Bool) (content : List Char) :
    Except PyErr (List Char) × PFFCell :=
  if content ≠ [] then (c.justify autotruncate content, c)
  else
    let c1 := { c with filler := ' ' }
    match c1.justify autotruncate content with
    | .ok v => (.ok v, { c1 with filler := '0' })
    | .error e => (.error e, c1)

/-- `PFFCell.write` as executed on a `PFFIntSpaceCell`: the inherited
body dispatches to the overriding `_justify`, so the cell state is
threaded through. -/
def intSpaceWrite (c : PFFCell) (autotruncate : Bool)
    (bwArg : Option (CellData → PVal → Except PyErr PVal)) (vals : Vals) :
    Except PyErr (List Char) × PFFCell :=
  match resolveText c bwArg vals with
  | .error e => (.error e, c)
  | .ok text => intSpaceJustify c autotruncate text

/-- The cell produced by `PFFCell(name, length)` with text type and no
optional arguments: left-aligned, space filler, no default, default
truncator, no hooks. -/
def strCell (name : List Char) (length : Nat) : PFFCell :=
  { name := name, length := length, type := .kstr, filler := ' ',
    align := true, default := .pnone,
    truncator := default_truncator, bw := none, ar := none }

/-! ### Decimal printing and parsing -/

theorem charToDigit_digitToChar {d : Nat} (h : d < 10) :
    charToDigit (digitToChar d) = some d := by
  interval_cases d <;> decide

theorem digitToChar_toNat {d : Nat} (h : d < 10) :
    48 ≤ (digitToChar d).toNat ∧ (digitToChar d).toNat ≤ 57 := by
  interval_cases d <;> decide

theorem natToCharsAux_eq :
    ∀ (fuel n : Nat), n ≤ fuel →
      natToCharsAux fuel n = ((Nat.digits 10 n).map digitToChar).reverse
  | 0, 0, _ => by simp [natToCharsAux]
  | 0, n + 1, h => absurd h (by omega)
  | _ + 1, 0, _ => by simp [natToCharsAux]
  | fuel + 1, n + 1, h => by
    have hdiv : (n + 1) / 10 ≤ fuel := by
      have := Nat.div_lt_self (Nat.succ_pos n) (by norm_num : 1 < 10)
      omega
    rw [natToCharsAux, natToCharsAux_eq fuel ((n + 1) / 10) hdiv,
      Nat.digits_def' (by norm_num : 1 < 10) (Nat.succ_pos n)]
    simp

theorem natToChars_eq (n : Nat) (hn : n ≠ 0) :
    natToChars n = ((Nat.digits 10 n).map digitToChar).reverse := by
  rw [natToChars, if_neg hn, natToCharsAux_eq n n le_rfl]

theorem parseDigitsAux_map (ds : List Nat) :
    ∀ acc, (∀ d ∈ ds, d < 10) →
      parseDigitsAux acc (ds.map digitToChar) =
        some (ds.foldl (fun a d => a * 10 + d) acc) := by
  induction ds with
  | nil => intro acc _; rfl
  | cons d rest ih =>
    intro acc h
    have hd : d < 10 := h d (List.mem_cons_self ..)
    rw [List.map_cons, parseDigitsAux, charToDigit_digitToChar hd, List.foldl_cons]
    exact ih (acc * 10 + d) (fun x hx => h x (List.mem_cons_of_mem _ hx))

theorem foldr_ofDigits (L : List Nat) :
    ∀ acc, L.foldr (fun d a => a * 10 + d) acc =
      acc * 10 ^ L.length + Nat.ofDigits 10 L := by
  induction L with
  | nil => intro acc; simp
  | cons d rest ih =>
    intro acc
    rw [List.foldr_cons, ih acc, Nat.ofDigits_cons]
    have : (10 : ℕ) ^ (d :: rest).length = 10 ^ rest.length * 10 := by
      rw [List.length_cons, pow_succ]
    rw [this]; ring

theorem parseDigits_natToChars (n : Nat) :
    parseDigits (natToChars n) = some n := by
  rcases Nat.eq_zero_or_pos n with h0 | hpos
  · subst h0; decide
  · have hn : n ≠ 0 := Nat.pos_iff_ne_zero.mp hpos
    have hne : Nat.digits 10 n ≠ [] := Nat.digits_ne_nil_iff_ne_zero.mpr hn
    rw [natToChars_eq n hn]
    have hmapne : ((Nat.digits 10 n).map digitToChar).reverse ≠ [] := by
      simpa using hne
    rw [parseDigits, if_neg hmapne, ← List.map_reverse]
    rw [parseDigitsAux_map ((Nat.digits 10 n).reverse) 0
      (fun d hd => Nat.digits_lt_base (by norm_num) (List.mem_reverse.mp hd))]
    rw [List.foldl_reverse, foldr_ofDigits]
    simp [Nat.ofDigits_digits]

theorem natToChars_ne_nil (n : Nat) : natToChars n ≠ [] := by
  rcases Nat.eq_zero_or_pos n with h0 | hpos
  · subst h0; decide
  · have hn : n ≠ 0 := Nat.pos_iff_ne_zero.mp hpos
    rw [natToChars_eq n hn]
    simpa using Nat.digits_ne_nil_iff_ne_zero.mpr hn

theorem intToChars_ne_nil (i : Int) : intToChars i ≠ [] := by
  cases i with
  | ofNat n => exact natToChars_ne_nil n
  | negSucc m => simp [intToChars]

theorem natToChars_mem_digit {n : Nat} {c : Char} (h : c ∈ natToChars n) :
    48 ≤ c.toNat ∧ c.toNat ≤ 57 := by
  rcases Nat.eq_zero_or_pos n with h0 | hpos
  · subst h0
    have h0' : natToChars 0 = ['0'] := rfl
    rw [h0', List.mem_singleton] at h
    subst h; decide
  · have hn : n ≠ 0 := Nat.pos_iff_ne_zero.mp hpos
    rw [natToChars_eq n hn, List.mem_reverse, List.mem_map] at h
    obtain ⟨d, hd, rfl⟩ := h
    exact digitToChar_toNat (Nat.digits_lt_base (by norm_num) hd)

theorem dropWhile_eq_self_of_forall (p : Char → Bool) (cs : List Char)
    (h : ∀ c ∈ cs, p c = false) : cs.dropWhile p = cs := by
  cases cs with
  | nil => rfl
  | cons a rest =>
    rw [List.dropWhile_cons, h a (List.mem_cons_self ..)]
    simp

theorem stripSpaces_eq_self {cs : List Char} (h : ∀ c ∈ cs, c ≠ ' ') :
    stripSpaces cs = cs := by
  unfold stripSpaces
  rw [dropWhile_eq_self_of_forall _ cs (fun c hc => by simpa using h c hc)]
  rw [dropWhile_eq_self_of_forall _ cs.reverse
    (fun c hc => by simpa using h c (List.mem_reverse.mp hc))]
  rw [List.reverse_reverse]

theorem natToChars_not_space {n : Nat} {c : Char} (h : c ∈ natToChars n) :
    c ≠ ' ' := by
  intro hc
  have := natToChars_mem_digit h
  rw [hc] at this
  simp at this

theorem parseInt_intToChars (i : Int) : parseInt (intToChars i) = some i := by
  cases i with
  | ofNat n =>
    rw [intToChars, parseInt]
    rw [stripSpaces_eq_self (fun c hc => natToChars_not_space hc)]
    rcases hne : natToChars n with _ | ⟨c, rest⟩
    · exact absurd hne (natToChars_ne_nil n)
    · have hcmem : c ∈ natToChars n := by rw [hne]; exact List.mem_cons_self ..
      have hd := natToChars_mem_digit hcmem
      have hc1 : c ≠ '-' := by
        intro h; subst h; exact absurd hd.1 (by decide)
      have hc2 : c ≠ '+' := by
        intro h; subst h; exact absurd hd.1 (by decide)
      rw [parseIntCore, if_neg hc1, if_neg hc2, ← hne, parseDigits_natToChars]
      rfl
  | negSucc m =>
    rw [intToChars, parseInt]
    have hstrip : stripSpaces ('-' :: natToChars (m + 1)) =
        '-' :: natToChars (m + 1) := by
      apply stripSpaces_eq_self
      intro c hc
      rcases List.mem_cons.mp hc with rfl | hmem
      · decide
      · exact natToChars_not_space hmem
    rw [hstrip, parseIntCore, if_pos rfl, parseDigits_natToChars]
    simp [Int.negSucc_eq]

/-! ### Padding and stripping -/

theorem pad_length {s : List Char} {n : Nat} (a : Bool) (f : Char)
    (h : s.length ≤ n) : (pad a f n s).length = n := by
  cases a <;> simp [pad] <;> omega

theorem pad_eq_self {s : List Char} {n : Nat} (a : Bool) (f : Char)
    (h : s.length = n) : pad a f n s = s := by
  cases a <;> simp [pad, h]

theorem dropWhile_replicate_append (f : Char) (k : Nat) (t : List Char) :
    (List.replicate k f ++ t).dropWhile (· == f) = t.dropWhile (· == f) := by
  induction k with
  | zero => simp
  | succ k ih => simp [List.replicate_succ, ih]

theorem dropWhile_eq_self_of_not_mem {f : Char} {t : List Char} (h : f ∉ t) :
    t.dropWhile (· == f) = t := by
  apply dropWhile_eq_self_of_forall
  intro c hc
  simp only [beq_eq_false_iff_ne, ne_eq]
  intro hcf
  exact h (hcf ▸ hc)

theorem strip_pad {a : Bool} {f : Char} {n : Nat} {t : List Char}
    (h : f ∉ t) : stripContent a f (pad a f n t) = t := by
  cases a with
  | false =>
    simp only [pad, stripContent, Bool.false_eq_true, if_false]
    rw [dropWhile_replicate_append, dropWhile_eq_self_of_not_mem h]
  | true =>
    simp only [pad, stripContent, if_true]
    rw [List.reverse_append, List.reverse_replicate,
      dropWhile_replicate_append,
      dropWhile_eq_self_of_not_mem (by simpa using h), List.reverse_reverse]

theorem stripContent_nil (a : Bool) (f : Char) : stripContent a f [] = [] := by
  cases a <;> simp [stripContent]

/-! ### Value maps -/

theorem getVal_setVal_self (vals : Vals) (k : List Char) (v : PVal) :
    getVal (setVal vals k v) k = some v := by
  induction vals with
  | nil => simp [setVal, getVal]
  | cons p rest ih =>
    by_cases h : p.1 = k
    · simp [setVal, getVal, h]
    · simp [setVal, getVal, h, ih]

theorem getVal_setVal_ne (vals : Vals) (k k' : List Char) (v : PVal)
    (h : k' ≠ k) : getVal (setVal vals k v) k' = getVal vals k' := by
  have hk : k ≠ k' := fun hc => h hc.symm
  induction vals with
  | nil => simp [setVal, getVal, hk]
  | cons p rest ih =>
    obtain ⟨a, b⟩ := p
    by_cases hp : a = k
    · subst hp
      simp [setVal, getVal, hk]
    · by_cases hp' : a = k'
      · simp [setVal, getVal, hp, hp', h, hk]
      · simp [setVal, getVal, hp, hp', ih]

theorem setVal_ne_nil (vals : Vals) (k : List Char) (v : PVal) :
    setVal vals k v ≠ [] := by
  cases vals with
  | nil => simp [setVal]
  | cons p rest =>
    by_cases h : p.1 = k <;> simp [setVal, h]

/-! ### Except-monad computation rules -/

theorem except_bind_ok {α β : Type} (a : α) (f : α → Except PyErr β) :
    (Except.ok a : Except PyErr α) >>= f = f a := rfl

theorem except_bind_error {α β : Type} (e : PyErr) (f : α → Except PyErr β) :
    (Except.error e : Except PyErr α) >>= f = Except.error e := rfl

theorem except_pure_eq_ok {α : Type} (a : α) :
    (pure a : Except PyErr α) = Except.ok a := rfl

/-! ### Reading a record shape -/

theorem cellRead_fst (c : PFFCell) (ar : Option (CellData → PVal → PVal))
    (line : List Char) (dest : Vals) :
    (c.read ar line dest).1 = line.drop c.length := rfl

theorem cellRead_snd (c : PFFCell) (ar : Option (CellData → PVal → PVal))
    (line : List Char) (dest : Vals) :
    (c.read ar line dest).2 =
      setVal dest c.name
        ((c.ar.getD (ar.getD default_after_read)) c.toCellData
          (if stripContent c.align c.filler (line.take c.length) = [] then
            PVal.pnone
          else PVal.pstr (stripContent c.align c.filler (line.take c.length)))) :=
  rfl

theorem lineReadAux_fst (l : List PFFCell) (ar : Option (CellData → PVal → PVal)) :
    ∀ (line : List Char) (res : Vals),
      (lineReadAux l ar line res).1 = line.drop (sumWidths l) := by
  induction l with
  | nil => intro line res; simp [lineReadAux, sumWidths]
  | cons c rest ih =>
    intro line res
    rw [lineReadAux, ih, cellRead_fst, List.drop_drop]
    have : sumWidths (c :: rest) = sumWidths rest + c.length := by
      simp [sumWidths]; omega
    rw [this, Nat.add_comm]

theorem lineReadAux_ne_nil (l : List PFFCell) (ar : Option (CellData → PVal → PVal)) :
    ∀ (line : List Char) (res : Vals), res ≠ [] →
      (lineReadAux l ar line res).2 ≠ [] := by
  induction l with
  | nil => intro line res h; exact h
  | cons c rest ih =>
    intro line res _
    apply ih
    rw [cellRead_snd]
    exact setVal_ne_nil _ _ _

theorem lineRead_ne_nil (l : List PFFCell) (ar : Option (CellData → PVal → PVal))
    (line : List Char) (h : l ≠ []) : lineRead l ar line ≠ [] := by
  cases l with
  | nil => exact absurd rfl h
  | cons c rest =>
    rw [lineRead, lineReadAux]
    apply lineReadAux_ne_nil
    rw [cellRead_snd]
    exact setVal_ne_nil _ _ _

theorem lineReadAux_getVal_not_mem (l : List PFFCell)
    (ar : Option (CellData → PVal → PVal)) :
    ∀ (line : List Char) (res : Vals) (k : List Char),
      k ∉ l.map (fun c => c.name) →
      getVal (lineReadAux l ar line res).2 k = getVal res k := by
  induction l with
  | nil => intro line res k _; rfl
  | cons c rest ih =>
    intro line res k hk
    simp only [List.map_cons, List.mem_cons, not_or] at hk
    rw [lineReadAux, ih _ _ _ hk.2, cellRead_snd]
    exact getVal_setVal_ne res c.name k _ hk.1

theorem lineReadAux_bound_preserved (l : List PFFCell)
    (ar : Option (CellData → PVal → PVal)) :
    ∀ (line : List Char) (res : Vals) (k : List Char),
      (∃ v, getVal res k = some v) →
      ∃ v', getVal (lineReadAux l ar line res).2 k = some v' := by
  induction l with
  | nil => intro line res k h; exact h
  | cons c rest ih =>
    intro line res k h
    rw [lineReadAux]
    apply ih
    by_cases hk : k = c.name
    · subst hk
      exact ⟨_, by rw [cellRead_snd]; exact getVal_setVal_self ..⟩
    · obtain ⟨v, hv⟩ := h
      exact ⟨v, by rw [cellRead_snd, getVal_setVal_ne _ _ _ _ hk, hv]⟩

theorem lineReadAux_mem_bound (l : List PFFCell)
    (ar : Option (CellData → PVal → PVal)) :
    ∀ (line : List Char) (res : Vals), ∀ c ∈ l,
      ∃ v, getVal (lineReadAux l ar line res).2 c.name = some v := by
  induction l with
  | nil => intro line res c hc; exact absurd hc (List.not_mem_nil c)
  | cons c0 rest ih =>
    intro line res c hc
    rcases List.mem_cons.mp hc with rfl | hmem
    · rw [lineReadAux]
      apply lineReadAux_bound_preserved
      exact ⟨_, by rw [cellRead_snd]; exact getVal_setVal_self ..⟩
    · rw [lineReadAux]
      exact ih _ _ c hmem

theorem lineReadAux_keys_subset (l : List PFFCell)
    (ar : Option (CellData → PVal → PVal)) :
    ∀ (line : List Char) (res : Vals) (k : List Char),
      getVal (lineReadAux l ar line res).2 k ≠ none →
      getVal res k ≠ none ∨ k ∈ l.map (fun c => c.name) := by
  induction l with
  | nil => intro line res k h; exact Or.inl h
  | cons c rest ih =>
    intro line res k h
    rw [lineReadAux] at h
    rcases ih _ _ _ h with h2 | h2
    · by_cases hk : k = c.name
      · exact Or.inr (by simp [hk])
      · rw [cellRead_snd, getVal_setVal_ne _ _ _ _ hk] at h2
        exact Or.inl h2
    · exact Or.inr (by simp [h2])

theorem lineReadAux_append (l1 l2 : List PFFCell)
    (ar : Option (CellData → PVal → PVal)) :
    ∀ (line : List Char) (res : Vals),
      lineReadAux (l1 ++ l2) ar line res =
        lineReadAux l2 ar (lineReadAux l1 ar line res).1
          (lineReadAux l1 ar line res).2 := by
  induction l1 with
  | nil => intro line res; rfl
  | cons c rest ih =>
    intro line res
    rw [List.cons_append, lineReadAux, ih, lineReadAux]

/-! ### Writing -/

theorem cell_write_frame (c : PFFCell) (autotruncate : Bool)
    (bwArg : Option (CellData → PVal → Except PyErr PVal)) (vals : Vals)
    (p : List Char × Vals) (h : c.write autotruncate bwArg vals = .ok p) :
    p.2 = vals := by
  unfold PFFCell.write at h
  cases hr : resolveText c bwArg vals with
  | error e =>
    rw [hr, except_bind_error] at h
    exact Except.noConfusion h
  | ok text =>
    rw [hr, except_bind_ok] at h
    cases hj : c.justify autotruncate text with
    | error e =>
      rw [hj, except_bind_error] at h
      exact Except.noConfusion h
    | ok out =>
      rw [hj, except_bind_ok, except_pure_eq_ok] at h
      injection h with h2
      rw [← h2]

theorem line_write_frame (l : List PFFCell) (autotruncate : Bool)
    (bwArg : Option (CellData → PVal → Except PyErr PVal)) :
    ∀ (vals : Vals) (p : List Char × Vals),
      lineWrite l autotruncate bwArg vals = .ok p → p.2 = vals := by
  induction l with
  | nil =>
    intro vals p h
    rw [lineWrite, except_pure_eq_ok] at h
    injection h with h2
    rw [← h2]
  | cons c rest ih =>
    intro vals p h
    rw [lineWrite] at h
    cases hc : c.write autotruncate bwArg vals with
    | error e =>
      rw [hc, except_bind_error] at h
      exact Except.noConfusion h
    | ok q =>
      rw [hc, except_bind_ok] at h
      have hq : q.2 = vals := cell_write_frame _ _ _ _ _ hc
      cases hrest : lineWrite rest autotruncate bwArg q.2 with
      | error e =>
        rw [hrest, except_bind_error] at h
        exact Except.noConfusion h
      | ok q2 =>
        rw [hrest, except_bind_ok, except_pure_eq_ok] at h
        injection h with h2
        rw [← h2]
        have := ih q.2 q2 hrest
        rw [this, hq]

theorem justify_true (c : PFFCell) (text : List Char) :
    c.justify true text =
      .ok (pad c.align c.filler c.length (c.truncator text c.length)) := rfl

theorem justify_false_ok (c : PFFCell) (text : List Char)
    (h : ¬ text.length > c.length) :
    c.justify false text = .ok (pad c.align c.filler c.length text) := by
  unfold PFFCell.justify
  simp only [Bool.false_eq_true, if_false, if_neg h]
  rfl

theorem justify_false_overflow (c : PFFCell) (text : List Char)
    (h : text.length > c.length) :
    c.justify false text = .error (.overflow text c.name c.length) := by
  unfold PFFCell.justify
  simp only [Bool.false_eq_true, if_false, if_pos h]
  rfl

theorem pyStr_ne_nil_of_truthy {v : PVal} (hv : pyTruthy v = true) :
    pyStr v ≠ [] := by
  cases v with
  | pnone => simp [pyTruthy] at hv
  | pint i => exact intToChars_ne_nil i
  | pstr s =>
    simp only [pyTruthy, Bool.not_eq_true'] at hv
    simpa [pyStr] using (List.isEmpty_eq_false.mp hv)

theorem truthy_if (w v : PVal) (hv : pyTruthy v = true) :
    pyTruthy (if pyTruthy w then w else v) = true := by
  by_cases hw : pyTruthy w = true
  · simp [hw]
  · simp [hw, hv]

/-- The shape of `resolveText` when the cell has no `before_write` hook,
none is passed, and the single-binding map carries a truthy value. -/
theorem resolveText_single (c : PFFCell) (v : PVal) (hbw : c.bw = none)
    (hv : pyTruthy v = true) :
    resolveText c none [(c.name, v)] =
      match coerce c.type v with
      | none => .error .typeErr
      | some w => .ok (pyStr (if pyTruthy w then w else v)) := by
  unfold resolveText resolveVal
  rw [hbw]
  have hg : getVal [(c.name, v)] c.name = some v := by simp [getVal]
  rw [hg]
  have hnn : v ≠ .pnone := by
    intro h; subst h; simp [pyTruthy] at hv
  rw [Option.getD_some, if_neg hnn]
  simp only [Option.getD_none]
  unfold default_before_write
  rw [if_pos hv]
  cases hco : coerce c.toCellData.type v with
  | none => rfl
  | some w =>
    show ((pure (if pyTruthy w then w else v) : Except PyErr PVal) >>=
      fun v2 => pure (if pyTruthy v2 then pyStr v2 else [])) = _
    rw [except_pure_eq_ok, except_bind_ok, if_pos (truthy_if w v hv)]
    rfl

/-- The value stored by the default after-read hook when reading back
the text written for a truthy value `v` whose write-time coercion
produced `w`. -/
theorem after_read_of_written (k : PKind) (v w : PVal)
    (hv : pyTruthy v = true) (hco : coerce k v = some w) :
    (coerce k (.pstr (pyStr (if pyTruthy w then w else v)))).getD
      (.pstr (pyStr (if pyTruthy w then w else v))) = w := by
  cases k with
  | kstr =>
    simp only [coerce, Option.some.injEq] at hco
    subst hco
    have hne : pyStr v ≠ [] := pyStr_ne_nil_of_truthy hv
    have ht : pyTruthy (PVal.pstr (pyStr v)) = true := by
      simp [pyTruthy, List.isEmpty_eq_false.mpr hne]
    rw [if_pos ht]
    simp [coerce, pyStr]
  | kint =>
    cases v with
    | pnone => simp [coerce] at hco
    | pint i =>
      simp only [coerce, Option.some.injEq] at hco
      subst hco
      have hi : pyTruthy (PVal.pint i) = true := hv
      rw [if_pos hi]
      simp [pyStr, coerce, parseInt_intToChars]
    | pstr s =>
      simp only [coerce, Option.map_eq_some'] at hco
      obtain ⟨j, hj, hw⟩ := hco
      subst hw
      by_cases hjz : pyTruthy (PVal.pint j) = true
      · rw [if_pos hjz]
        simp [pyStr, coerce, parseInt_intToChars]
      · rw [if_neg hjz]
        simp [pyStr, coerce, hj]

/-! ### Claim theorems -/

/-- C1: for every field whose truncator respects the truncation
contract, every value map and both truncation modes, when the text of
the resolved value fits in the field's width, `PFFCell.write` returns
a string of length exactly the field's width. -/
theorem c1_write_length_exact (c : PFFCell) (autotruncate : Bool)
    (bwArg : Option (CellData → PVal → Except PyErr PVal)) (vals : Vals)
    (text : List Char)
    (htr : ∀ t n, (c.truncator t n).length ≤ n)
    (hres : resolveText c bwArg vals = .ok text)
    (hlen : text.length ≤ c.length) :
    ∃ out, c.write autotruncate bwArg vals = .ok (out, vals) ∧
      out.length = c.length := by
  unfold PFFCell.write
  rw [hres, except_bind_ok]
  cases autotruncate with
  | true =>
    rw [justify_true, except_bind_ok, except_pure_eq_ok]
    exact ⟨_, rfl, pad_length _ _ (htr text c.length)⟩
  | false =>
    rw [justify_false_ok _ _ (by omega), except_bind_ok, except_pure_eq_ok]
    exact ⟨_, rfl, pad_length _ _ hlen⟩

/-- Witness for C1: a width-4 text field writing a 2-character value. -/
theorem c1_witness :
    ∃ out,
      (strCell ['n'] 4).write true none [(['n'], PVal.pstr ['a', 'b'])] =
        .ok (out, [(['n'], PVal.pstr ['a', 'b'])]) ∧
      out.length = (strCell ['n'] 4).length :=
  c1_write_length_exact (strCell ['n'] 4) true none
    [(['n'], PVal.pstr ['a', 'b'])] ['a', 'b']
    (fun t n => by
      simp only [strCell, default_truncator, List.length_take]
      omega)
    rfl (by decide)

/-- C2: for every field with the default truncator, when the resolved
text is strictly longer than the width, writing with truncation
disabled raises `ContentOverflow` carrying the text and the field
identity, and writing with truncation enabled succeeds with output the
first `width` characters of the text. -/
theorem c2_overflow_vs_truncate (c : PFFCell)
    (bwArg : Option (CellData → PVal → Except PyErr PVal)) (vals : Vals)
    (text : List Char)
    (htr : c.truncator = default_truncator)
    (hres : resolveText c bwArg vals = .ok text)
    (hlen : c.length < text.length) :
    c.write false bwArg vals = .error (.overflow text c.name c.length) ∧
    c.write true bwArg vals = .ok (text.take c.length, vals) := by
  constructor
  · unfold PFFCell.write
    rw [hres, except_bind_ok, justify_false_overflow _ _ hlen, except_bind_error]
  · unfold PFFCell.write
    rw [hres, except_bind_ok, justify_true, htr, default_truncator]
    have hl : (text.take c.length).length = c.length := by
      simp only [List.length_take]
      omega
    rw [pad_eq_self _ _ hl, except_bind_ok, except_pure_eq_ok]

/-- Witness for C2: a width-2 text field given a 3-character value. -/
theorem c2_witness :
    (strCell ['n'] 2).write false none [(['n'], PVal.pstr ['a', 'b', 'c'])] =
      .error (.overflow ['a', 'b', 'c'] ['n'] 2) ∧
    (strCell ['n'] 2).write true none [(['n'], PVal.pstr ['a', 'b', 'c'])] =
      .ok (['a', 'b'], [(['n'], PVal.pstr ['a', 'b', 'c'])]) :=
  c2_overflow_vs_truncate (strCell ['n'] 2) none
    [(['n'], PVal.pstr ['a', 'b', 'c'])] ['a', 'b', 'c']
    rfl rfl (by decide)

/-- C3 (amended): for every field with no hooks and the default
truncator, and every truthy value whose resolved text contains no
filler character and fits in the width, reading back the written
string stores exactly the kind-coerced value. -/
theorem c3_roundtrip (c : PFFCell) (v : PVal) (text : List Char)
    (hbw : c.bw = none) (har : c.ar = none)
    (htr : c.truncator = default_truncator)
    (hv : pyTruthy v = true)
    (hres : resolveText c none [(c.name, v)] = .ok text)
    (hnf : c.filler ∉ text)
    (hlen : text.length ≤ c.length) :
    ∃ out rv,
      c.write true none [(c.name, v)] = .ok (out, [(c.name, v)]) ∧
      coerce c.type v = some rv ∧
      getVal (c.read none out []).2 c.name = some rv := by
  have hchar := resolveText_single c v hbw hv
  rw [hres] at hchar
  cases hco : coerce c.type v with
  | none =>
    rw [hco] at hchar
    exact Except.noConfusion hchar
  | some w =>
    rw [hco] at hchar
    injection hchar with htext
    refine ⟨pad c.align c.filler c.length text, w, ?_, rfl, ?_⟩
    · unfold PFFCell.write
      rw [hres, except_bind_ok, justify_true, htr, default_truncator,
        List.take_of_length_le hlen, except_bind_ok, except_pure_eq_ok]
    · have houtlen : (pad c.align c.filler c.length text).length = c.length :=
        pad_length _ _ hlen
      have htake : (pad c.align c.filler c.length text).take c.length =
          pad c.align c.filler c.length text :=
        List.take_of_length_le (le_of_eq houtlen)
      have hstrip :
          stripContent c.align c.filler (pad c.align c.filler c.length text) =
            text := strip_pad hnf
      have htext_ne : text ≠ [] := by
        rw [htext]
        exact pyStr_ne_nil_of_truthy (truthy_if w v hv)
      rw [cellRead_snd, har]
      simp only [Option.getD_none]
      rw [htake, hstrip, if_neg htext_ne, getVal_setVal_self]
      unfold default_after_read
      have ht : pyTruthy (PVal.pstr text) = true := by
        simp [pyTruthy, List.isEmpty_eq_false.mpr htext_ne]
      rw [if_pos ht, htext]
      exact congrArg some (after_read_of_written c.type v w hv hco)

/-- Witness for C3 (amended): a width-4 text field round-tripping the
value "ab". -/
theorem c3_witness :
    ∃ out rv,
      (strCell ['n'] 4).write true none [(['n'], PVal.pstr ['a', 'b'])] =
        .ok (out, [(['n'], PVal.pstr ['a', 'b'])]) ∧
      coerce (strCell ['n'] 4).type (PVal.pstr ['a', 'b']) = some rv ∧
      getVal ((strCell ['n'] 4).read none out []).2 ['n'] = some rv :=
  c3_roundtrip (strCell ['n'] 4) (PVal.pstr ['a', 'b']) ['a', 'b']
    rfl rfl rfl (by decide) rfl (by decide) (by decide)

/-- Counterexample to C3 as stated: the empty string satisfies all the
claim's hypotheses (no hooks, text fits, no filler occurs in the
text), yet reading back the written field stores `None`, not the
kind-coerced empty string. -/
theorem c3_counterexample :
    resolveText (strCell ['n'] 3) none [(['n'], PVal.pstr [])] = .ok [] ∧
    (' ' ∉ ([] : List Char)) ∧
    (strCell ['n'] 3).write true none [(['n'], PVal.pstr [])] =
      .ok ([' ', ' ', ' '], [(['n'], PVal.pstr [])]) ∧
    coerce (strCell ['n'] 3).type (PVal.pstr []) = some (PVal.pstr []) ∧
    getVal ((strCell ['n'] 3).read none [' ', ' ', ' '] []).2 ['n'] =
      some PVal.pnone ∧
    (PVal.pnone ≠ PVal.pstr []) := by
  refine ⟨rfl, by decide, rfl, by decide, by decide, by decide⟩

/-- C4: for every field using the default after-read behaviour, when
the stripped slice is nonempty and its kind coercion fails, the raw
stripped text is stored in the result map instead of an exception
propagating. -/
theorem c4_read_lenient (c : PFFCell) (line : List Char) (dest : Vals)
    (har : c.ar = none)
    (hne : stripContent c.align c.filler (line.take c.length) ≠ [])
    (hfail : coerce c.type
      (.pstr (stripContent c.align c.filler (line.take c.length))) = none) :
    getVal (c.read none line dest).2 c.name =
      some (.pstr (stripContent c.align c.filler (line.take c.length))) := by
  rw [cellRead_snd, har]
  simp only [Option.getD_none]
  rw [if_neg hne, getVal_setVal_self]
  unfold default_after_read
  have ht : pyTruthy
      (PVal.pstr (stripContent c.align c.filler (line.take c.length))) = true := by
    simp [pyTruthy, List.isEmpty_eq_false.mpr hne]
  rw [if_pos ht, hfail, Option.getD_none]

/-- Witness for C4: an integer field of width 3 reading the malformed
slice "xyz" stores the raw string. -/
theorem c4_witness :
    getVal ((mkIntCell ['a'] 3).read none ['x', 'y', 'z'] []).2 ['a'] =
      some (.pstr ['x', 'y', 'z']) := by
  have h := c4_read_lenient (mkIntCell ['a'] 3) ['x', 'y', 'z'] []
    rfl (by decide) (by decide)
  simpa using h

/-- C5: composition always splices: `(a+b)+c`, `a+(b+c)` and the
directly constructed `PFFLine(a, b, c)` are the same flat cell
sequence. -/
theorem c5_composition_assoc (a b c : PFFCell) :
    (cellAdd a (.cell b)).bind (fun ab => lineAdd ab (.cell c)) =
      .ok (lineInit [.cell a, .cell b, .cell c]) ∧
    (cellAdd b (.cell c)).bind (fun bc => cellAdd a (.line bc)) =
      .ok (lineInit [.cell a, .cell b, .cell c]) ∧
    lineInit [.cell a, .cell b, .cell c] = [a, b, c] :=
  ⟨rfl, rfl, rfl⟩

/-- C6: an Integer-or-Blank field of width 5 writes five spaces when
no value is supplied, writes "00020" for the value 20, and in both
cases the cell afterwards has filler '0' again. -/
theorem c6_int_space_cell :
    intSpaceWrite (mkIntCell ['n'] 5) true none [] =
      (.ok [' ', ' ', ' ', ' ', ' '], mkIntCell ['n'] 5) ∧
    intSpaceWrite (mkIntCell ['n'] 5) true none [(['n'], PVal.pint 20)] =
      (.ok ['0', '0', '0', '2', '0'], mkIntCell ['n'] 5) ∧
    (mkIntCell ['n'] 5).filler = '0' :=
  ⟨rfl, rfl, rfl⟩

/-- C9 (amended): combining a non-field, non-shape operand by
concatenation or append raises `TypeError` immediately, for every
shape and every field. -/
theorem c9_foreign_operand (l : List PFFCell) (c : PFFCell) (s : List Char) :
    lineAppend l (.other s) = .error .typeErr ∧
    lineAdd l (.other s) = .error .typeErr ∧
    cellAdd c (.other s) = .error .typeErr :=
  ⟨rfl, rfl, rfl⟩

/-- Counterexample to C9 as stated: constructing a shape with a
foreign operand does not surface any error; the operand is silently
ignored. -/
theorem c9_counterexample :
    lineInit [.cell (strCell ['n'] 3), .other ['x']] = [strCell ['n'] 3] ∧
    lineInit [.other ['x']] = ([] : List PFFCell) :=
  ⟨rfl, rfl⟩

/-- C10: with the default before-write hook, writing a field or a
record shape leaves the input value map unchanged. -/
theorem c10_write_frame (c : PFFCell) (l : List PFFCell) (autotruncate : Bool)
    (vals : Vals) (_hbw : c.bw = none) (_hl : ∀ c2 ∈ l, c2.bw = none) :
    (∀ p, c.write autotruncate none vals = .ok p → p.2 = vals) ∧
    (∀ p, lineWrite l autotruncate none vals = .ok p → p.2 = vals) :=
  ⟨fun p h => cell_write_frame c autotruncate none vals p h,
   fun p h => line_write_frame l autotruncate none vals p h⟩

/-- Witness for C10: a concrete field and one-field shape writing a
concrete map. -/
theorem c10_witness :
    (∀ p, (strCell ['n'] 2).write true none [(['n'], PVal.pstr ['a'])] =
      .ok p → p.2 = [(['n'], PVal.pstr ['a'])]) ∧
    (∀ p, lineWrite [strCell ['n'] 2] true none [(['n'], PVal.pstr ['a'])] =
      .ok p → p.2 = [(['n'], PVal.pstr ['a'])]) :=
  c10_write_frame (strCell ['n'] 2) [strCell ['n'] 2] true
    [(['n'], PVal.pstr ['a'])] rfl
    (fun c2 h => by
      rw [List.mem_singleton] at h
      subst h
      rfl)

/-- `PFFReader.readline` on a non-exhausted source with a first line
model decodes the first raw line and advances. -/
theorem readline_cons (r : PFFReader) (m : List PFFCell)
    (rest : List (List PFFCell)) (h1 : r.lines = m :: rest)
    (l : List Char) (fs2 : FileSt) (hl : l ≠ []) :
    r.readline (l :: fs2) = .ok (some (lineRead m r.arArg l),
      { r with lcount := r.lcount + 1 }, fs2) := by
  unfold PFFReader.readline
  simp only [fileReadline]
  rw [if_neg hl]
  unfold PFFReader.choseLineModel
  rw [h1]
  rfl

/-- C7 (amended): for a reader whose chosen line model is a nonempty
shape, one iteration step signals end-of-sequence exactly when the
source is exhausted, and otherwise yields the decoded row and advances
the source. -/
theorem c7_reader_stop_iff (r : PFFReader) (fs : FileSt) (m : List PFFCell)
    (rest : List (List PFFCell)) (h1 : r.lines = m :: rest) (h2 : m ≠ [])
    (h3 : ∀ l ∈ fs, l ≠ []) :
    (fs = [] → r.next fs = .ok (.stop, r, [])) ∧
    (∀ l fs2, fs = l :: fs2 →
      r.next fs = .ok (.row (lineRead m r.arArg l),
        { r with lcount := r.lcount + 1 }, fs2)) := by
  constructor
  · intro hfs
    subst hfs
    rfl
  · intro l fs2 hfs
    subst hfs
    have hl : l ≠ [] := h3 l (List.mem_cons_self ..)
    have hr := readline_cons r m rest h1 l fs2 hl
    unfold PFFReader.next
    rw [hr, except_bind_ok]
    have hne := lineRead_ne_nil m r.arArg l h2
    simp [hne, except_pure_eq_ok]

/-- Witness for C7: a reader with a one-cell shape on a one-line
source and on the exhausted source. -/
theorem c7_witness :
    (PFFReader.next ⟨[[strCell ['n'] 2]], 0, none⟩ [] =
      .ok (.stop, ⟨[[strCell ['n'] 2]], 0, none⟩, [])) ∧
    (PFFReader.next ⟨[[strCell ['n'] 2]], 0, none⟩ [['a', 'b']] =
      .ok (.row (lineRead [strCell ['n'] 2] none ['a', 'b']),
        ⟨[[strCell ['n'] 2]], 1, none⟩, [])) := by
  have h := c7_reader_stop_iff ⟨[[strCell ['n'] 2]], 0, none⟩ [['a', 'b']]
    [strCell ['n'] 2] [] rfl (List.cons_ne_nil _ _)
    (fun l hl => by
      rw [List.mem_singleton] at hl
      subst hl
      decide)
  refine ⟨?_, h.2 ['a', 'b'] [] rfl⟩
  have h0 := c7_reader_stop_iff ⟨[[strCell ['n'] 2]], 0, none⟩ []
    [strCell ['n'] 2] [] rfl (List.cons_ne_nil _ _)
    (fun l hl => absurd hl (List.not_mem_nil l))
  exact h0.1 rfl

/-- Counterexample to C7 as stated: a reader whose only line model is
the empty shape decodes a line of a non-exhausted source to the empty
row map, which the iterator treats as end-of-sequence. -/
theorem c7_counterexample :
    PFFReader.next ⟨[[]], 0, none⟩ [['a']] =
      .ok (.stop, ⟨[[]], 1, none⟩, []) ∧ (([['a']] : FileSt) ≠ []) :=
  ⟨rfl, by decide⟩

/-- C8: for every record shape and every input shorter than the
shape's cumulative width, `PFFLine.read` still returns a row map with
an entry for every field and no other entries, and every field lying
entirely past the end of the input gets its absent-value handling
(the effective after-read hook applied to `None`). -/
theorem c8_short_read (m : List PFFCell) (ar : Option (CellData → PVal → PVal))
    (line : List Char) (hshort : line.length < sumWidths m) :
    (∀ c ∈ m, ∃ v, getVal (lineRead m ar line) c.name = some v) ∧
    (∀ k, getVal (lineRead m ar line) k ≠ none →
      k ∈ m.map (fun c => c.name)) ∧
    (∀ m1 c m2, m = m1 ++ c :: m2 →
      c.name ∉ m2.map (fun c2 => c2.name) →
      line.length ≤ sumWidths m1 →
      getVal (lineRead m ar line) c.name =
        some ((c.ar.getD (ar.getD default_after_read)) c.toCellData
          PVal.pnone)) := by
  refine ⟨?_, ?_, ?_⟩
  · intro c hc
    exact lineReadAux_mem_bound m ar line [] c hc
  · intro k h
    rcases lineReadAux_keys_subset m ar line [] k h with h2 | h2
    · simp [getVal] at h2
    · exact h2
  · intro m1 c m2 hm hnotin hge
    subst hm
    rw [lineRead, lineReadAux_append]
    have hdrop : (lineReadAux m1 ar line []).1 = [] := by
      rw [lineReadAux_fst]
      exact List.drop_eq_nil_of_le hge
    rw [hdrop, lineReadAux,
      lineReadAux_getVal_not_mem _ _ _ _ _ hnotin, cellRead_snd]
    simp only [List.take_nil, stripContent_nil, if_pos rfl]
    exact getVal_setVal_self ..

/-- Witness for C8: a two-field shape of cumulative width 4 reading a
one-character line. -/
theorem c8_witness :
    (∀ c ∈ [strCell ['a'] 2, strCell ['b'] 2],
      ∃ v, getVal (lineRead [strCell ['a'] 2, strCell ['b'] 2] none ['x'])
        c.name = some v) ∧
    (∀ k, getVal (lineRead [strCell ['a'] 2, strCell ['b'] 2] none ['x']) k ≠
        none →
      k ∈ [strCell ['a'] 2, strCell ['b'] 2].map (fun c => c.name)) ∧
    (∀ m1 c m2,
      [strCell ['a'] 2, strCell ['b'] 2] = m1 ++ c :: m2 →
      c.name ∉ m2.map (fun c2 => c2.name) →
      (['x'] : List Char).length ≤ sumWidths m1 →
      getVal (lineRead [strCell ['a'] 2, strCell ['b'] 2] none ['x']) c.name =
        some ((c.ar.getD ((none : Option (CellData → PVal → PVal)).getD
          default_after_read)) c.toCellData PVal.pnone)) :=
  c8_short_read [strCell ['a'] 2, strCell ['b'] 2] none ['x'] (by decide)

end PFF
